import Mathlib

/-!
Verification of the memory-reordering harness (src/clang/ordering.cpp).

The development shallowly embeds the program's components:
* the lock-free counting semaphore built on `std::atomic<int>`
  (`sem_signal`, `sem_wait`, lines 78-94), with two's-complement
  32-bit `int` arithmetic made explicit through `wrap32`;
* the memory orderings the semaphore operations use, together with a
  small release/acquire happens-before model;
* the `MersenneTwister` delay generator (lines 24-65), both as a direct
  translation (`MersenneTwister.integer`, `MersenneTwister.create`) and
  as an arithmetically packed equivalent used for fast kernel evaluation;
* the two worker thread bodies (lines 96-138) as per-iteration action
  traces;
* the controller loop of `main` (lines 160-181) as an action list and a
  result-inspection function;
* the affinity-pinning block of `main` (lines 151-158).
-/

/-! ## Two's-complement 32-bit integers

`std::atomic<int>` arithmetic is defined by the C++ standard to wrap in
two's complement.  `wrap32 x` is the value of the signed 32-bit integer
whose residue mod `2^32` agrees with `x`. -/

def wrap32 (x : Int) : Int := (x + 2 ^ 31) % 2 ^ 32 - 2 ^ 31

theorem wrap32_of_range (x : Int) (h1 : -2 ^ 31 ≤ x) (h2 : x < 2 ^ 31) :
    wrap32 x = x := by
  unfold wrap32; omega

theorem wrap32_lb (x : Int) : -2 ^ 31 ≤ wrap32 x := by
  unfold wrap32; omega

theorem wrap32_lt (x : Int) : wrap32 x < 2 ^ 31 := by
  unfold wrap32; omega

theorem wrap32_add_left (a b : Int) : wrap32 (wrap32 a + b) = wrap32 (a + b) := by
  unfold wrap32; omega

/-! ## The counting semaphore (ordering.cpp lines 78-94)

`sem_signal` performs `sema.fetch_add(1, memory_order_release)`: the
count is incremented by one with two's-complement wraparound, and the
operation cannot fail.

`sem_wait` spins: each loop iteration loads `oldCount` (relaxed) and, if
`oldCount > 0`, attempts `compare_exchange_strong(oldCount, oldCount-1,
memory_order_acquire)`, which succeeds exactly when the semaphore still
holds `oldCount`; on a non-positive read or a failed CAS the iteration
falls through to `sched_yield()` and retries.  `sem_wait` is modelled on
a finite schedule of loop iterations, each given by the value the
relaxed load observes and the value the semaphore actually holds when
the CAS (if attempted) executes; the result is the new count together
with the number of yielded (failed) iterations before success, or `none`
when every scheduled iteration fails. -/

def sem_signal (sema : Int) : Int := wrap32 (sema + 1)

def sem_wait : List (Int × Int) → Option (Int × Nat)
  | [] => none
  | (oldCount, actual) :: rest =>
    if 0 < oldCount ∧ actual = oldCount then some (wrap32 (oldCount - 1), 0)
    else
      match sem_wait rest with
      | none => none
      | some (v, yields) => some (v, yields + 1)

/-- One interleaved history of completed semaphore operations: a
`signal` event is a completed `fetch_add`, a `wait` event is a `sem_wait`
call returning (its successful CAS decrements a strictly positive
count). -/
inductive SemEvent
  | signal
  | wait
deriving DecidableEq

/-- `SemSteps c tr c'` holds when the interleaved sequence `tr` of
completed operations can execute from count `c` and leaves count `c'`. -/
inductive SemSteps : Int → List SemEvent → Int → Prop
  | nil (c : Int) : SemSteps c [] c
  | signal (c : Int) (tr : List SemEvent) (c' : Int)
      (h : SemSteps (sem_signal c) tr c') : SemSteps c (SemEvent.signal :: tr) c'
  | wait (c : Int) (tr : List SemEvent) (c' : Int) (hpos : 0 < c)
      (h : SemSteps (wrap32 (c - 1)) tr c') : SemSteps c (SemEvent.wait :: tr) c'

def countSignals (tr : List SemEvent) : Nat := tr.count SemEvent.signal

def countWaits (tr : List SemEvent) : Nat := tr.count SemEvent.wait

theorem semSteps_invariant (c : Int) (tr : List SemEvent) (c' : Int)
    (h : SemSteps c tr c') :
    ∀ S W : Nat, c = wrap32 ((S : Int) - W) → W ≤ S →
      W + countWaits tr ≤ S + countSignals tr ∧
      c' = wrap32 (((S + countSignals tr : Nat) : Int) - ((W + countWaits tr : Nat) : Int)) := by
  induction h with
  | nil c =>
    intro S W hc hWS
    refine ⟨by simpa [countWaits, countSignals] using hWS, ?_⟩
    simpa [countWaits, countSignals] using hc
  | signal c tr c' h ih =>
    intro S W hc hWS
    have hsig : sem_signal c = wrap32 (((S + 1 : Nat) : Int) - (W : Int)) := by
      rw [sem_signal, hc, wrap32_add_left]
      congr 1
      push_cast
      ring
    obtain ⟨h1, h2⟩ := ih (S + 1) W hsig (by omega)
    have hs : countSignals (SemEvent.signal :: tr) = countSignals tr + 1 := by
      simp [countSignals, List.count_cons]
    have hw : countWaits (SemEvent.signal :: tr) = countWaits tr := by
      simp [countWaits, List.count_cons]
    constructor
    · omega
    · rw [h2, hs, hw]
      congr 1
      push_cast
      ring
  | wait c tr c' hpos h ih =>
    intro S W hc hWS
    have hWltS : W < S := by
      rcases Nat.lt_or_ge W S with hlt | _
      · exact hlt
      · exfalso
        have hWeq : W = S := le_antisymm hWS (by omega)
        subst hWeq
        rw [hc] at hpos
        simp only [sub_self] at hpos
        have : wrap32 0 = 0 := by unfold wrap32; omega
        omega
    have hdec : wrap32 (c - 1) = wrap32 ((S : Int) - ((W + 1 : Nat) : Int)) := by
      rw [hc]
      have h1 : wrap32 ((S : Int) - (W : Int)) - 1 = wrap32 ((S : Int) - (W : Int)) + (-1) := by
        ring
      rw [h1, wrap32_add_left]
      congr 1
      push_cast
      ring
    obtain ⟨h1, h2⟩ := ih S (W + 1) hdec (by omega)
    have hs : countSignals (SemEvent.wait :: tr) = countSignals tr := by
      simp [countSignals, List.count_cons]
    have hw : countWaits (SemEvent.wait :: tr) = countWaits tr + 1 := by
      simp [countWaits, List.count_cons]
    constructor
    · omega
    · rw [h2, hs, hw]
      congr 1
      push_cast
      ring

theorem semSteps_replicate_signal (n : Nat) :
    ∀ c : Int, SemSteps c (List.replicate (n + 1) SemEvent.signal) (wrap32 (c + (n + 1))) := by
  induction n with
  | zero =>
    intro c
    have h0 : wrap32 (c + 1) = sem_signal c := rfl
    rw [show ((0 : Nat) + 1 : Nat) = 1 by rfl]
    push_cast
    rw [h0]
    exact SemSteps.signal c [] (sem_signal c) (SemSteps.nil _)
  | succ n ih =>
    intro c
    have step := ih (sem_signal c)
    have harith : wrap32 (sem_signal c + (n + 1)) = wrap32 (c + (n + 1 + 1)) := by
      rw [sem_signal, wrap32_add_left]
      congr 1
      ring
    rw [harith] at step
    have := SemSteps.signal c (List.replicate (n + 1) SemEvent.signal) _ step
    rw [← List.replicate_succ] at this
    push_cast at this ⊢
    convert this using 2

/-- C1: for every interleaved sequence of completed `sem_signal` and
returned `sem_wait` operations starting from count 0, the number of
returned waits never exceeds the number of completed signals; and the
count is non-negative provided the surplus of signals over waits has
stayed below `2^31` (without that bound the 32-bit `int` count wraps
negative, see `C1_count_nonneg_counterexample`). -/
theorem C1_semaphore_invariant (tr : List SemEvent) (c : Int)
    (h : SemSteps 0 tr c) :
    countWaits tr ≤ countSignals tr ∧
      (((countSignals tr : Int) - (countWaits tr : Int) < 2 ^ 31) → 0 ≤ c) := by
  have h0 : (0 : Int) = wrap32 ((0 : Nat) - ((0 : Nat) : Int)) := by
    unfold wrap32; omega
  obtain ⟨h1, h2⟩ := semSteps_invariant 0 tr c h 0 0 h0 le_rfl
  simp only [Nat.zero_add] at h1 h2
  refine ⟨h1, fun hbound => ?_⟩
  rw [h2, wrap32_of_range]
  · omega
  · omega
  · omega

theorem C1_semaphore_invariant_witness :
    countWaits [SemEvent.signal, SemEvent.wait] ≤
        countSignals [SemEvent.signal, SemEvent.wait] ∧
      (((countSignals [SemEvent.signal, SemEvent.wait] : Int) -
          (countWaits [SemEvent.signal, SemEvent.wait] : Int) < 2 ^ 31) → 0 ≤ (0 : Int)) := by
  have hderiv : SemSteps 0 [SemEvent.signal, SemEvent.wait] 0 := by
    have h1 : (1 : Int) = sem_signal 0 := by decide
    have h2 : wrap32 (sem_signal 0 - 1) = 0 := by decide
    refine SemSteps.signal 0 [SemEvent.wait] 0 ?_
    refine SemSteps.wait (sem_signal 0) [] 0 (by decide) ?_
    rw [h2]
    exact SemSteps.nil 0
  exact C1_semaphore_invariant [SemEvent.signal, SemEvent.wait] 0 hderiv

/-- C1 counterexample: `2^31` completed signals from count 0 drive the
32-bit count to `INT_MIN`, which is negative, so "the semaphore's count
is never negative at any point" fails as stated. -/
theorem C1_count_nonneg_counterexample :
    SemSteps 0 (List.replicate (2 ^ 31) SemEvent.signal) (-(2 ^ 31)) ∧
      (-(2 ^ 31) : Int) < 0 := by
  constructor
  · have h := semSteps_replicate_signal (2 ^ 31 - 1) 0
    have harith : wrap32 (0 + ((2 ^ 31 - 1 : Nat) + 1)) = -(2 ^ 31) := by
      have hn : ((2 ^ 31 - 1 : Nat) : Int) = 2 ^ 31 - 1 := by
        push_cast
      rw [hn]
      unfold wrap32
      omega
    rw [harith] at h
    have hrep : (2 ^ 31 - 1 : Nat) + 1 = 2 ^ 31 := by omega
    rwa [hrep] at h
  · omega

theorem sem_wait_some_spec (sched : List (Int × Int)) (v : Int) (n : Nat)
    (h : sem_wait sched = some (v, n)) :
    ∃ obs cur : Int, sched.get? n = some (obs, cur) ∧ 0 < obs ∧ cur = obs ∧
      v = wrap32 (obs - 1) ∧
      ∀ k : Nat, k < n → ∀ p : Int × Int, sched.get? k = some p →
        ¬(0 < p.1 ∧ p.2 = p.1) := by
  induction sched generalizing v n with
  | nil => simp [sem_wait] at h
  | cons hd rest ih =>
    obtain ⟨obs, cur⟩ := hd
    rw [sem_wait] at h
    by_cases hcond : 0 < obs ∧ cur = obs
    · rw [if_pos hcond] at h
      obtain ⟨h1, h2⟩ := Prod.mk.inj (Option.some.inj h)
      refine ⟨obs, cur, ?_, hcond.1, hcond.2, h1.symm, ?_⟩
      · rw [← h2]; rfl
      · intro k hk
        rw [← h2] at hk
        exact absurd hk (Nat.not_lt_zero k)
    · rw [if_neg hcond] at h
      cases hrest : sem_wait rest with
      | none =>
        rw [hrest] at h
        exact absurd h (by simp)
      | some pr =>
        obtain ⟨v', y⟩ := pr
        rw [hrest] at h
        obtain ⟨h1, h2⟩ := Prod.mk.inj (Option.some.inj h)
        obtain ⟨obs', cur', hget, hpos, hcur, hv, hearlier⟩ := ih v' y hrest
        refine ⟨obs', cur', ?_, hpos, hcur, by rw [← h1]; exact hv, ?_⟩
        · rw [← h2]
          simpa using hget
        · intro k hk p hp
          rw [← h2] at hk
          cases k with
          | zero =>
            have hp' : p = (obs, cur) := by
              simpa using hp.symm
            rw [hp']
            exact hcond
          | succ k' =>
            have hk' : k' < y := by omega
            exact hearlier k' hk' p (by simpa using hp)

theorem sem_wait_all_fail (sched : List (Int × Int))
    (h : ∀ p ∈ sched, ¬(0 < p.1 ∧ p.2 = p.1)) : sem_wait sched = none := by
  induction sched with
  | nil => rfl
  | cons hd rest ih =>
    obtain ⟨obs, cur⟩ := hd
    rw [sem_wait]
    have hhd : ¬(0 < obs ∧ cur = obs) := by
      have := h (obs, cur) (List.mem_cons_self _ _)
      simpa using this
    rw [if_neg hhd, ih (fun p hp => h p (List.mem_cons_of_mem _ hp))]

/-- C2 (amended): `sem_signal` increments the count by one with
two's-complement wraparound of the 32-bit `int` — exactly one for every
count below `INT_MAX`, while `INT_MAX` wraps to `INT_MIN` — and always
succeeds with no error condition (it is a total function on counts);
`sem_wait` returns only from an iteration whose relaxed load observed a
strictly positive `oldCount` and whose CAS found the semaphore still at
`oldCount`, storing `oldCount - 1`; every earlier iteration (a CAS
failure or a non-positive read) yielded and retried, and if every
iteration fails `sem_wait` does not return. -/
theorem C2_signal_wait_semantics :
    (∀ c : Int, -2 ^ 31 ≤ c → c < 2 ^ 31 - 1 → sem_signal c = c + 1) ∧
      sem_signal (2 ^ 31 - 1) = -(2 ^ 31) ∧
      (∀ (sched : List (Int × Int)) (v : Int) (n : Nat),
        sem_wait sched = some (v, n) →
          ∃ obs cur : Int, sched.get? n = some (obs, cur) ∧ 0 < obs ∧ cur = obs ∧
            v = wrap32 (obs - 1) ∧ (obs < 2 ^ 31 → v = obs - 1) ∧
            ∀ k : Nat, k < n → ∀ p : Int × Int, sched.get? k = some p →
              ¬(0 < p.1 ∧ p.2 = p.1)) ∧
      (∀ sched : List (Int × Int),
        (∀ p ∈ sched, ¬(0 < p.1 ∧ p.2 = p.1)) → sem_wait sched = none) := by
  refine ⟨?_, by decide, ?_, sem_wait_all_fail⟩
  · intro c hlo hhi
    rw [sem_signal, wrap32_of_range] <;> omega
  · intro sched v n h
    obtain ⟨obs, cur, hget, hpos, hcur, hv, hearlier⟩ := sem_wait_some_spec sched v n h
    refine ⟨obs, cur, hget, hpos, hcur, hv, ?_, hearlier⟩
    intro hrange
    rw [hv, wrap32_of_range] <;> omega

theorem C2_signal_wait_semantics_witness :
    sem_signal 0 = 0 + 1 ∧
      (∃ obs cur : Int,
        [((0 : Int), (0 : Int)), ((1 : Int), (1 : Int))].get? 1 = some (obs, cur) ∧
          0 < obs ∧ cur = obs ∧ (0 : Int) = wrap32 (obs - 1) ∧
          (obs < 2 ^ 31 → (0 : Int) = obs - 1) ∧
          ∀ k : Nat, k < 1 → ∀ p : Int × Int,
            [((0 : Int), (0 : Int)), ((1 : Int), (1 : Int))].get? k = some p →
              ¬(0 < p.1 ∧ p.2 = p.1)) := by
  constructor
  · exact C2_signal_wait_semantics.1 0 (by norm_num) (by norm_num)
  · exact C2_signal_wait_semantics.2.2.1 [(0, 0), (1, 1)] 0 1 (by decide)

/-- C2 counterexample: at `INT_MAX` the `fetch_add` does not increment
the count "by exactly one": it wraps to `INT_MIN`. -/
theorem C2_exact_increment_counterexample :
    ¬ sem_signal (2 ^ 31 - 1) = (2 ^ 31 - 1) + 1 := by
  decide

/-! ## Memory orderings of the semaphore operations (lines 79, 87-88)

`sem_signal` performs its `fetch_add` with `std::memory_order_release`;
`sem_wait` performs its relaxed poll load with
`std::memory_order_relaxed` and its successful decrementing CAS with
`std::memory_order_acquire`.  A small axiomatic execution model captures
the release/acquire publication guarantee: an execution is a list of
events (thread id plus operation); program order relates events of one
thread in list order; an acquire read-modify-write that reads from a
release read-modify-write on the same location synchronizes with it;
happens-before is the transitive closure. -/

inductive MemoryOrder
  | relaxed
  | consume
  | acquire
  | release
  | acq_rel
  | seq_cst
deriving DecidableEq

def sem_signal_order : MemoryOrder := MemoryOrder.release

def sem_wait_load_order : MemoryOrder := MemoryOrder.relaxed

def sem_wait_cas_order : MemoryOrder := MemoryOrder.acquire

def MemoryOrder.isRelease : MemoryOrder → Bool
  | MemoryOrder.release => true
  | MemoryOrder.acq_rel => true
  | MemoryOrder.seq_cst => true
  | _ => false

def MemoryOrder.isAcquire : MemoryOrder → Bool
  | MemoryOrder.acquire => true
  | MemoryOrder.acq_rel => true
  | MemoryOrder.seq_cst => true
  | _ => false

inductive MemOp
  | write (loc val : Nat)
  | read (loc : Nat)
  | rmw (loc : Nat) (ord : MemoryOrder) (readsFrom : Nat)
deriving DecidableEq

structure MemEvent where
  tid : Nat
  op : MemOp
deriving DecidableEq

/-- Program order: `i` precedes `j` on the same thread. -/
def progOrder (ex : List MemEvent) (i j : Nat) : Prop :=
  i < j ∧ j < ex.length ∧
    ∃ ei ej, ex.get? i = some ei ∧ ex.get? j = some ej ∧ ei.tid = ej.tid

/-- Synchronizes-with: an acquire RMW at `j` reads from a release RMW at
`i` on the same location. -/
def syncWith (ex : List MemEvent) (i j : Nat) : Prop :=
  ∃ ei ej loc ordi ri ordj,
    ex.get? i = some ei ∧ ex.get? j = some ej ∧
      ei.op = MemOp.rmw loc ordi ri ∧ ej.op = MemOp.rmw loc ordj i ∧
      ordi.isRelease = true ∧ ordj.isAcquire = true

/-- Happens-before: transitive closure of program order and
synchronizes-with. -/
def happensBefore (ex : List MemEvent) : Nat → Nat → Prop :=
  Relation.TransGen (fun i j => progOrder ex i j ∨ syncWith ex i j)

/-- C3: the semaphore pair is an acquire/release pairing — the signal's
`fetch_add` uses release ordering and the wait's successful CAS uses
acquire ordering — and in the happens-before model this makes every
event program-ordered before a `sem_signal` RMW happen-before every
event program-ordered after the `sem_wait` CAS that reads from it; in
particular a write preceding the signal is visible to the consuming
thread's subsequent events. -/
theorem C3_acquire_release_pairing :
    sem_signal_order.isRelease = true ∧ sem_wait_cas_order.isAcquire = true ∧
      sem_wait_load_order = MemoryOrder.relaxed ∧
      ∀ (ex : List MemEvent) (w s a e : Nat) (ew es ea : MemEvent)
        (loc : Nat) (rs : Nat),
        ex.get? w = some ew → ex.get? s = some es → ex.get? a = some ea →
        w < s → ew.tid = es.tid →
        es.op = MemOp.rmw loc sem_signal_order rs →
        ea.op = MemOp.rmw loc sem_wait_cas_order s →
        progOrder ex a e →
        happensBefore ex w e := by
  refine ⟨rfl, rfl, rfl, ?_⟩
  intro ex w s a e ew es ea loc rs hw hs ha hws htid hsop haop hae
  have hpo_ws : progOrder ex w s := by
    refine ⟨hws, ?_, ew, es, hw, hs, htid⟩
    exact (List.get?_eq_some.mp hs).1
  have hsw : syncWith ex s a :=
    ⟨es, ea, loc, sem_signal_order, rs, sem_wait_cas_order, hs, ha, hsop, haop, rfl, rfl⟩
  exact Relation.TransGen.trans
    (Relation.TransGen.trans (Relation.TransGen.single (Or.inl hpo_ws))
      (Relation.TransGen.single (Or.inr hsw)))
    (Relation.TransGen.single (Or.inl hae))

theorem C3_acquire_release_pairing_witness :
    happensBefore
      [⟨0, MemOp.write 1 1⟩, ⟨0, MemOp.rmw 0 sem_signal_order 0⟩,
       ⟨1, MemOp.rmw 0 sem_wait_cas_order 1⟩, ⟨1, MemOp.read 1⟩] 0 3 := by
  refine C3_acquire_release_pairing.2.2.2
    [⟨0, MemOp.write 1 1⟩, ⟨0, MemOp.rmw 0 sem_signal_order 0⟩,
     ⟨1, MemOp.rmw 0 sem_wait_cas_order 1⟩, ⟨1, MemOp.read 1⟩]
    0 1 2 3 ⟨0, MemOp.write 1 1⟩ ⟨0, MemOp.rmw 0 sem_signal_order 0⟩
    ⟨1, MemOp.rmw 0 sem_wait_cas_order 1⟩ 0 0 rfl rfl rfl (by norm_num) rfl rfl rfl ?_
  exact ⟨by norm_num, by norm_num,
    ⟨1, MemOp.rmw 0 sem_wait_cas_order 1⟩, ⟨1, MemOp.read 1⟩, rfl, rfl, rfl⟩

/-! ## MersenneTwister (ordering.cpp lines 21-65)

Direct translation: `m_buffer` is the `unsigned int [624]` array (each
entry a value below `2^32`), `m_index` the `int` index.  `integer`
computes the wrap-around indices `i2` and `j` exactly as the source
does, twists, stores the raw value back at `i`, advances the index and
returns the tempered value.  The constructor fills the buffer with the
seed and then iterates `integer` `MT_LEN * 100` times. -/

def MT_IA : Int := 397

def MT_LEN : Int := 624

structure MersenneTwister where
  m_buffer : List Nat
  m_index : Int
deriving DecidableEq

def MersenneTwister.integer (m : MersenneTwister) : Nat × MersenneTwister :=
  let i : Int := m.m_index
  let i2 : Int := if m.m_index + 1 ≥ MT_LEN then 0 else m.m_index + 1
  let j : Int :=
    if m.m_index + MT_IA ≥ MT_LEN then m.m_index + MT_IA - MT_LEN else m.m_index + MT_IA
  let s : Nat :=
    ((m.m_buffer.getD i.toNat 0) &&& 0x80000000) ||| ((m.m_buffer.getD i2.toNat 0) &&& 0x7fffffff)
  let r : Nat := (m.m_buffer.getD j.toNat 0) ^^^ (s >>> 1) ^^^ ((s &&& 1) * 0x9908B0DF)
  let buf : List Nat := m.m_buffer.set i.toNat r
  let ra : Nat := r ^^^ (r >>> 11)
  let rb : Nat := ra ^^^ ((ra <<< 7) &&& 0x9d2c5680)
  let rc : Nat := rb ^^^ ((rb <<< 15) &&& 0xefc60000)
  let rd : Nat := rc ^^^ (rc >>> 18)
  (rd, { m_buffer := buf, m_index := i2 })

/-- The `m_buffer` indices read or written by one `integer()` call:
`i` (read and written), `i2` and `j` (read). -/
def MersenneTwister.accessedIndices (m : MersenneTwister) : List Int :=
  [m.m_index,
   if m.m_index + 1 ≥ MT_LEN then 0 else m.m_index + 1,
   if m.m_index + MT_IA ≥ MT_LEN then m.m_index + MT_IA - MT_LEN else m.m_index + MT_IA]

def mtWarm : Nat → MersenneTwister → MersenneTwister
  | 0, m => m
  | n + 1, m => mtWarm n (m.integer).2

def MersenneTwister.create (seed : Nat) : MersenneTwister :=
  mtWarm (624 * 100) { m_buffer := List.replicate 624 (seed % 2 ^ 32), m_index := 0 }

/-- The first `n` values returned by successive `integer()` calls. -/
def mtOutputs : MersenneTwister → Nat → List Nat
  | _, 0 => []
  | m, n + 1 => (m.integer).1 :: mtOutputs (m.integer).2 n

/-- States reachable from some constructed instance by `integer()`
calls. -/
inductive MTReachable : MersenneTwister → Prop
  | create (seed : Nat) : MTReachable (MersenneTwister.create seed)
  | step (m : MersenneTwister) (h : MTReachable m) : MTReachable (m.integer).2

theorem integer_index (m : MersenneTwister) (h0 : 0 ≤ m.m_index)
    (h1 : m.m_index < 624) : (m.integer).2.m_index = (m.m_index + 1) % 624 := by
  simp only [MersenneTwister.integer, MT_LEN]
  split
  · omega
  · omega

theorem integer_index_bounds (m : MersenneTwister) (h0 : 0 ≤ m.m_index)
    (h1 : m.m_index < 624) :
    0 ≤ (m.integer).2.m_index ∧ (m.integer).2.m_index < 624 := by
  rw [integer_index m h0 h1]
  omega

theorem mtWarm_index (n : Nat) :
    ∀ m : MersenneTwister, 0 ≤ m.m_index → m.m_index < 624 →
      (mtWarm n m).m_index = (m.m_index + n) % 624 := by
  induction n with
  | zero =>
    intro m h0 h1
    simp only [mtWarm]
    omega
  | succ n ih =>
    intro m h0 h1
    rw [mtWarm]
    obtain ⟨hb0, hb1⟩ := integer_index_bounds m h0 h1
    rw [ih _ hb0 hb1, integer_index m h0 h1]
    push_cast
    omega

theorem create_index (seed : Nat) : (MersenneTwister.create seed).m_index = 0 := by
  rw [MersenneTwister.create, mtWarm_index (624 * 100) _ (by norm_num) (by norm_num)]
  norm_num

theorem reachable_index_bounds (m : MersenneTwister) (h : MTReachable m) :
    0 ≤ m.m_index ∧ m.m_index < 624 := by
  induction h with
  | create seed =>
    rw [create_index]
    omega
  | step m _ ih => exact integer_index_bounds m ih.1 ih.2

/-- C9: every reachable generator state has `0 ≤ m_index < 624`; under
that bound one `integer()` call touches `m_buffer` only at the indices
`i`, `i2`, `j`, all in `[0, 624)`, and advances `m_index` by one modulo
624; and the constructor's `624 * 100` warm-up calls leave `m_index`
at 0. -/
theorem C9_index_safety :
    (∀ m : MersenneTwister, MTReachable m → 0 ≤ m.m_index ∧ m.m_index < 624) ∧
      (∀ m : MersenneTwister, 0 ≤ m.m_index → m.m_index < 624 →
        (∀ k ∈ m.accessedIndices, 0 ≤ k ∧ k < 624) ∧
          (m.integer).2.m_index = (m.m_index + 1) % 624) ∧
      ∀ seed : Nat, (MersenneTwister.create seed).m_index = 0 := by
  refine ⟨reachable_index_bounds, ?_, create_index⟩
  intro m h0 h1
  refine ⟨?_, integer_index m h0 h1⟩
  intro k hk
  simp only [MersenneTwister.accessedIndices, MT_LEN, MT_IA, List.mem_cons,
    List.mem_singleton, List.not_mem_nil, or_false] at hk
  rcases hk with rfl | rfl | rfl
  · omega
  · split <;> omega
  · split <;> omega

theorem C9_index_safety_witness :
    (0 ≤ (MersenneTwister.create 0).m_index ∧ (MersenneTwister.create 0).m_index < 624) ∧
      ((∀ k ∈ (⟨List.replicate 624 0, 5⟩ : MersenneTwister).accessedIndices,
          0 ≤ k ∧ k < 624) ∧
        ((⟨List.replicate 624 0, 5⟩ : MersenneTwister).integer).2.m_index = (5 + 1) % 624) :=
  ⟨C9_index_safety.1 (MersenneTwister.create 0) (MTReachable.create 0),
   C9_index_safety.2.1 ⟨List.replicate 624 0, 5⟩ (by norm_num) (by norm_num)⟩

theorem getD_replicate_zero (n i : Nat) : (List.replicate n (0 : Nat)).getD i 0 = 0 := by
  induction n generalizing i with
  | zero => simp [List.getD]
  | succ n ih =>
    cases i with
    | zero => simp [List.replicate_succ]
    | succ i => simp [List.replicate_succ, ih i]

theorem set_replicate_zero (n i : Nat) :
    (List.replicate n (0 : Nat)).set i 0 = List.replicate n (0 : Nat) := by
  induction n generalizing i with
  | zero => simp
  | succ n ih =>
    cases i with
    | zero => simp [List.replicate_succ]
    | succ i => simp [List.replicate_succ, ih]

theorem integer_all_zero (m : MersenneTwister)
    (hbuf : m.m_buffer = List.replicate 624 0) :
    (m.integer).1 = 0 ∧ (m.integer).2.m_buffer = m.m_buffer := by
  simp only [MersenneTwister.integer, hbuf, getD_replicate_zero, set_replicate_zero]
  norm_num

theorem mtOutputs_all_zero (n : Nat) :
    ∀ m : MersenneTwister, m.m_buffer = List.replicate 624 0 →
      mtOutputs m n = List.replicate n 0 := by
  induction n with
  | zero => intro m _; rfl
  | succ n ih =>
    intro m hbuf
    obtain ⟨hout, hb⟩ := integer_all_zero m hbuf
    rw [mtOutputs, hout, ih (m.integer).2 (hb.trans hbuf), List.replicate_succ]

theorem mtWarm_all_zero (n : Nat) :
    ∀ m : MersenneTwister, m.m_buffer = List.replicate 624 0 →
      (mtWarm n m).m_buffer = List.replicate 624 0 := by
  induction n with
  | zero => intro m hbuf; exact hbuf
  | succ n ih =>
    intro m hbuf
    exact ih (m.integer).2 ((integer_all_zero m hbuf).2.trans hbuf)

theorem create_zero_buffer :
    (MersenneTwister.create 0).m_buffer = List.replicate 624 0 := by
  rw [MersenneTwister.create]
  exact mtWarm_all_zero (624 * 100) _ (by norm_num)

/-- C10: seed 0 is degenerate — the constructed instance has the
all-zero buffer, one `integer()` call on any all-zero-buffer state
returns 0 and leaves the buffer unchanged, and hence every output of
the seed-0 instance is 0 forever. -/
theorem C10_seed_zero_degenerate :
    (MersenneTwister.create 0).m_buffer = List.replicate 624 0 ∧
      (∀ m : MersenneTwister, m.m_buffer = List.replicate 624 0 →
        (m.integer).1 = 0 ∧ (m.integer).2.m_buffer = m.m_buffer) ∧
      ∀ n : Nat, mtOutputs (MersenneTwister.create 0) n = List.replicate n 0 :=
  ⟨create_zero_buffer, integer_all_zero,
   fun n => mtOutputs_all_zero n _ create_zero_buffer⟩

theorem C10_seed_zero_degenerate_witness :
    ((⟨List.replicate 624 0, 0⟩ : MersenneTwister).integer).1 = 0 ∧
      ((⟨List.replicate 624 0, 0⟩ : MersenneTwister).integer).2.m_buffer =
        (⟨List.replicate 624 0, 0⟩ : MersenneTwister).m_buffer :=
  C10_seed_zero_degenerate.2.1 ⟨List.replicate 624 0, 0⟩ rfl

/-! ## Packed equivalent of the generator state

For kernel-checkable evaluation of the constructor's 62400 warm-up
calls, the 624-entry buffer is packed into a single natural number,
32 bits per entry, and kept *rotated* so that the entry at the current
`m_index` always occupies the lowest 32 bits: one `integer()` call then
reads bit fields 0, 1 and 397, and the new buffer is the old one
shifted right by 32 bits with the raw twist value appended at the top.
`rotN` iterates the step by binary splitting via a bare `Nat.rec`; its
`cond` guards are semantically the identity (both branches are equal)
and only keep kernel reduction shallow and shared.  Everything here is
proved equivalent to the direct translation above. -/

def B32 : Nat := 4294967296

def packBuf : List Nat → Nat
  | [] => 0
  | x :: xs => x + B32 * packBuf xs

def packRep : Nat → Nat → Nat
  | 0, _ => 0
  | n + 1, c => Nat.add c (Nat.mul B32 (packRep n c))

/-- The tempering (swizzle) applied by `integer()` to the raw twist
value before returning it, written with the source's operators. -/
def temper (r : Nat) : Nat :=
  let ra := r ^^^ (r >>> 11)
  let rb := ra ^^^ ((ra <<< 7) &&& 0x9d2c5680)
  let rc := rb ^^^ ((rb <<< 15) &&& 0xefc60000)
  rc ^^^ (rc >>> 18)

/-- The raw twist value `r` of one `integer()` call, read off the
rotated packed buffer: bit field 0 is the entry at `i`, field 1 the
entry at `i2`, field 397 the entry at `j`. -/
def rotTwistVal (buf : Nat) : Nat :=
  let s := Nat.lor (Nat.land (Nat.mod buf 4294967296) 2147483648)
    (Nat.land (Nat.mod (Nat.div buf 4294967296) 4294967296) 2147483647)
  Nat.xor
    (Nat.xor (Nat.mod (Nat.div buf (2 ^ (32 * 397))) 4294967296) (Nat.div s 2))
    (Nat.mul (Nat.land s 1) 2567483615)

/-- The rotated packed buffer after one `integer()` call: shift out the
current entry and append the raw twist value at the top. -/
def rotStep (buf : Nat) : Nat :=
  Nat.add (Nat.div buf 4294967296) (Nat.mul (rotTwistVal buf) (2 ^ (32 * 623)))

/-- `rotN k buf` applies `rotStep` `2 ^ k` times, by binary splitting. -/
def rotN : Nat → Nat → Nat :=
  @Nat.rec (fun _ => Nat → Nat) rotStep
    (fun _ ih buf =>
      let b := ih buf
      cond (Nat.beq (Nat.mod b 2) 0) (ih b) (ih b))

def rotBits : List Nat → Nat → Nat
  | [], buf => buf
  | k :: ks, buf =>
    let b := rotN k buf
    cond (Nat.beq (Nat.mod b 2) 0) (rotBits ks b) (rotBits ks b)

/-- The packed buffer of `MersenneTwister.create seed`:
62400 = 2^6 + 2^7 + 2^8 + 2^9 + 2^12 + 2^13 + 2^14 + 2^15 twist steps
on the packed seed-filled buffer.  62400 is a multiple of 624, so the
rotation is back in phase with index 0 afterwards. -/
def packedCreate (seed : Nat) : Nat :=
  rotBits [6, 7, 8, 9, 12, 13, 14, 15] (packRep 624 (Nat.mod seed B32))

def packedFirstOutput (seed : Nat) : Nat := temper (rotTwistVal (packedCreate seed))

def sumPow : List Nat → Nat
  | [] => 0
  | k :: ks => 2 ^ k + sumPow ks

def rotSeq : Nat → Nat → Nat
  | 0, buf => buf
  | n + 1, buf => rotSeq n (rotStep buf)

theorem condSelf {α : Type} (b : Bool) (x : α) : cond b x x = x := by
  cases b <;> rfl

theorem packRep_eq (n c : Nat) : packRep n c = packBuf (List.replicate n c) := by
  induction n with
  | zero => rfl
  | succ n ih => simp [packRep, packBuf, List.replicate_succ, ih, Nat.add, Nat.mul]

theorem pack_getD (l : List Nat) (hl : ∀ x ∈ l, x < B32) :
    ∀ idx : Nat, Nat.mod (Nat.div (packBuf l) (Nat.pow B32 idx)) B32 = l.getD idx 0 := by
  induction l with
  | nil =>
    intro idx
    show (0 / B32 ^ idx) % B32 = ([] : List Nat).getD idx 0
    simp
  | cons x xs ih =>
    intro idx
    have hx : x < B32 := hl x (List.mem_cons_self _ _)
    have hxs : ∀ y ∈ xs, y < B32 := fun y hy => hl y (List.mem_cons_of_mem _ hy)
    cases idx with
    | zero =>
      show (x + B32 * packBuf xs) / B32 ^ 0 % B32 = x
      rw [pow_zero, Nat.div_one, Nat.add_mul_mod_self_left, Nat.mod_eq_of_lt hx]
    | succ idx =>
      show (x + B32 * packBuf xs) / B32 ^ (idx + 1) % B32 = xs.getD idx 0
      rw [pow_succ', ← Nat.div_div_eq_div_mul,
        Nat.add_mul_div_left _ _ (show 0 < B32 by unfold B32; norm_num),
        Nat.div_eq_of_lt hx, Nat.zero_add]
      exact ih hxs idx

theorem pack_get0 (L : List Nat) (h : ∀ x ∈ L, x < B32) :
    L.getD 0 0 = packBuf L % B32 := by
  have h1 : packBuf L / B32 ^ 0 % B32 = L.getD 0 0 := pack_getD L h 0
  rw [pow_zero, Nat.div_one] at h1
  exact h1.symm

theorem pack_get1 (L : List Nat) (h : ∀ x ∈ L, x < B32) :
    L.getD 1 0 = packBuf L / B32 % B32 := by
  have h1 : packBuf L / B32 ^ 1 % B32 = L.getD 1 0 := pack_getD L h 1
  rw [pow_one] at h1
  exact h1.symm

theorem pack_get397 (L : List Nat) (h : ∀ x ∈ L, x < B32) :
    L.getD 397 0 = packBuf L / 2 ^ (32 * 397) % B32 := by
  have h1 : packBuf L / B32 ^ 397 % B32 = L.getD 397 0 := pack_getD L h 397
  have hpow : (B32 : Nat) ^ 397 = 2 ^ (32 * 397) := by
    rw [pow_mul]
    norm_num [B32]
  rw [hpow] at h1
  exact h1.symm

theorem pack_append_singleton (v : Nat) :
    ∀ xs : List Nat, packBuf (xs ++ [v]) = packBuf xs + v * B32 ^ xs.length := by
  intro xs
  induction xs with
  | nil =>
    show v + B32 * 0 = 0 + v * B32 ^ 0
    ring
  | cons x xs ih =>
    show x + B32 * packBuf (xs ++ [v]) = x + B32 * packBuf xs + v * B32 ^ (xs.length + 1)
    rw [ih]
    ring

theorem pack_drop1 (L : List Nat) (hne : L ≠ []) (h : ∀ x ∈ L, x < B32) :
    packBuf (L.drop 1) = packBuf L / B32 := by
  cases L with
  | nil => exact absurd rfl hne
  | cons x xs =>
    show packBuf xs = (x + B32 * packBuf xs) / B32
    rw [Nat.add_mul_div_left _ _ (show 0 < B32 by unfold B32; norm_num),
      Nat.div_eq_of_lt (h x (List.mem_cons_self _ _)), Nat.zero_add]

/-- Wellformedness of a generator state: the buffer is the 624-entry
array of 32-bit values and the index is in range. -/
def MTwf (m : MersenneTwister) : Prop :=
  m.m_buffer.length = 624 ∧ (∀ x ∈ m.m_buffer, x < B32) ∧ 0 ≤ m.m_index ∧ m.m_index < 624

theorem getD_lt (l : List Nat) (hl : ∀ x ∈ l, x < B32) :
    ∀ k : Nat, l.getD k 0 < B32 := by
  induction l with
  | nil =>
    intro k
    show (0 : Nat) < B32
    unfold B32
    norm_num
  | cons x xs ih =>
    intro k
    cases k with
    | zero => exact hl x (List.mem_cons_self _ _)
    | succ k => exact ih (fun y hy => hl y (List.mem_cons_of_mem _ hy)) k

theorem i2_toNat (x : Int) (h0 : 0 ≤ x) (h1 : x < 624) :
    (if x + 1 ≥ MT_LEN then 0 else x + 1).toNat = (x.toNat + 1) % 624 := by
  rw [MT_LEN]
  split <;> omega

theorem j_toNat (x : Int) (h0 : 0 ≤ x) (h1 : x < 624) :
    (if x + MT_IA ≥ MT_LEN then x + MT_IA - MT_LEN else x + MT_IA).toNat =
      (x.toNat + 397) % 624 := by
  rw [MT_LEN, MT_IA]
  split <;> omega

theorem rotate_getD0 (l : List Nat) (hlen : l.length = 624) (n : Nat) (_hn : n < 624) :
    l.getD n 0 = (l.rotate n).getD 0 0 := by
  have h0 : (0 : Nat) < l.length := by omega
  rw [List.getD_eq_getElem?_getD, List.getD_eq_getElem?_getD, List.getElem?_rotate h0, hlen]
  have hidx : (0 + n) % 624 = n := by omega
  rw [hidx]

theorem rotate_getD1 (l : List Nat) (hlen : l.length = 624) (n : Nat) (_hn : n < 624) :
    l.getD ((n + 1) % 624) 0 = (l.rotate n).getD 1 0 := by
  have h1 : (1 : Nat) < l.length := by omega
  rw [List.getD_eq_getElem?_getD, List.getD_eq_getElem?_getD, List.getElem?_rotate h1, hlen]
  have hidx : (1 + n) % 624 = (n + 1) % 624 := by omega
  rw [hidx]

theorem rotate_getD397 (l : List Nat) (hlen : l.length = 624) (n : Nat) (_hn : n < 624) :
    l.getD ((n + 397) % 624) 0 = (l.rotate n).getD 397 0 := by
  have h397 : (397 : Nat) < l.length := by omega
  rw [List.getD_eq_getElem?_getD, List.getD_eq_getElem?_getD, List.getElem?_rotate h397, hlen]
  have hidx : (397 + n) % 624 = (n + 397) % 624 := by omega
  rw [hidx]

theorem rot_twist_bridge (l : List Nat) (hl : ∀ x ∈ l, x < B32) (hlen : l.length = 624)
    (x : Int) (h0 : 0 ≤ x) (h1 : x < 624) :
    l.getD (if x + MT_IA ≥ MT_LEN then x + MT_IA - MT_LEN else x + MT_IA).toNat 0 ^^^
        ((l.getD x.toNat 0 &&& 0x80000000) |||
            (l.getD (if x + 1 ≥ MT_LEN then 0 else x + 1).toNat 0 &&& 0x7fffffff)) >>> 1 ^^^
        (((l.getD x.toNat 0 &&& 0x80000000) |||
            (l.getD (if x + 1 ≥ MT_LEN then 0 else x + 1).toNat 0 &&& 0x7fffffff)) &&& 1) *
          0x9908B0DF =
      rotTwistVal (packBuf (l.rotate x.toNat)) := by
  have hn : x.toNat < 624 := by omega
  have hrot : ∀ y ∈ l.rotate x.toNat, y < B32 := fun y hy => hl y (List.mem_rotate.mp hy)
  rw [i2_toNat x h0 h1, j_toNat x h0 h1, rotate_getD0 l hlen x.toNat hn,
    rotate_getD1 l hlen x.toNat hn, rotate_getD397 l hlen x.toNat hn,
    pack_get0 _ hrot, pack_get1 _ hrot, pack_get397 _ hrot]
  rfl

theorem twist_src_lt (l : List Nat) (hl : ∀ x ∈ l, x < B32) (a b c : Nat) :
    l.getD c 0 ^^^
        ((l.getD a 0 &&& 0x80000000) ||| (l.getD b 0 &&& 0x7fffffff)) >>> 1 ^^^
        (((l.getD a 0 &&& 0x80000000) ||| (l.getD b 0 &&& 0x7fffffff)) &&& 1) * 0x9908B0DF <
      B32 := by
  have hB : B32 = 2 ^ 32 := by unfold B32; norm_num
  rw [hB]
  have hs : (l.getD a 0 &&& 0x80000000) ||| (l.getD b 0 &&& 0x7fffffff) < 2 ^ 32 :=
    Nat.or_lt_two_pow (Nat.and_lt_two_pow _ (by norm_num)) (Nat.and_lt_two_pow _ (by norm_num))
  refine Nat.xor_lt_two_pow (Nat.xor_lt_two_pow ?_ ?_) ?_
  · exact hB ▸ getD_lt l hl c
  · calc ((l.getD a 0 &&& 0x80000000) ||| (l.getD b 0 &&& 0x7fffffff)) >>> 1
        ≤ (l.getD a 0 &&& 0x80000000) ||| (l.getD b 0 &&& 0x7fffffff) := by
          rw [Nat.shiftRight_eq_div_pow]
          exact Nat.div_le_self _ _
      _ < 2 ^ 32 := hs
  · calc (((l.getD a 0 &&& 0x80000000) ||| (l.getD b 0 &&& 0x7fffffff)) &&& 1) * 0x9908B0DF
        ≤ 1 * 0x9908B0DF := by
          have h1 : ((l.getD a 0 &&& 0x80000000) ||| (l.getD b 0 &&& 0x7fffffff)) &&& 1 < 2 ^ 1 :=
            Nat.and_lt_two_pow _ (by norm_num)
          exact Nat.mul_le_mul (by omega) (Nat.le_refl _)
      _ < 2 ^ 32 := by norm_num

theorem integer_fst_bridge (m : MersenneTwister) (h : MTwf m) :
    (m.integer).1 = temper (rotTwistVal (packBuf (m.m_buffer.rotate m.m_index.toNat))) := by
  obtain ⟨hlen, hvals, h0, h1⟩ := h
  simp only [MersenneTwister.integer, temper]
  rw [rot_twist_bridge m.m_buffer hvals hlen m.m_index h0 h1]

theorem rot_set_step (l : List Nat) (hlen : l.length = 624) (n : Nat) (hn : n < 624)
    (r : Nat) :
    (l.set n r).rotate ((n + 1) % 624) = (l.rotate n).drop 1 ++ [r] := by
  apply List.ext_getElem?
  intro k
  have hlen1 : ((l.rotate n).drop 1).length = 623 := by
    rw [List.length_drop, List.length_rotate, hlen]
  by_cases hk : k < 624
  · have hk1 : k < (l.set n r).length := by
      rw [List.length_set, hlen]
      exact hk
    rw [List.getElem?_rotate hk1, List.length_set, hlen]
    have hidx : (k + (n + 1) % 624) % 624 = (k + n + 1) % 624 := by omega
    rw [hidx]
    by_cases hk2 : k < 623
    · have hne : n ≠ (k + n + 1) % 624 := by omega
      rw [List.getElem?_set_ne hne, List.getElem?_append_left (by omega),
        List.getElem?_drop, List.getElem?_rotate (show 1 + k < l.length by omega), hlen]
      have hidx2 : (1 + k + n) % 624 = (k + n + 1) % 624 := by omega
      rw [hidx2]
    · have hk623 : k = 623 := by omega
      subst hk623
      have hidx3 : (623 + n + 1) % 624 = n := by omega
      rw [hidx3, List.getElem?_set_self (by omega),
        List.getElem?_append_right (by omega), hlen1]
      rfl
  · rw [List.getElem?_eq_none, List.getElem?_eq_none]
    · rw [List.length_append, hlen1]
      simp only [List.length_singleton]
      omega
    · rw [List.length_rotate, List.length_set, hlen]
      omega

theorem integer_snd_bridge (m : MersenneTwister) (h : MTwf m) :
    packBuf ((m.integer).2.m_buffer.rotate ((m.m_index.toNat + 1) % 624)) =
      rotStep (packBuf (m.m_buffer.rotate m.m_index.toNat)) := by
  obtain ⟨hlen, hvals, h0, h1⟩ := h
  have hn : m.m_index.toNat < 624 := by omega
  have hrne : m.m_buffer.rotate m.m_index.toNat ≠ [] := by
    intro hcon
    have := congrArg List.length hcon
    rw [List.length_rotate, hlen] at this
    simp at this
  have hrot : ∀ y ∈ m.m_buffer.rotate m.m_index.toNat, y < B32 := fun y hy =>
    hvals y (List.mem_rotate.mp hy)
  have hlen1 : ((m.m_buffer.rotate m.m_index.toNat).drop 1).length = 623 := by
    rw [List.length_drop, List.length_rotate, hlen]
  simp only [MersenneTwister.integer]
  rw [rot_set_step m.m_buffer hlen m.m_index.toNat hn _, pack_append_singleton, hlen1,
    pack_drop1 _ hrne hrot, rot_twist_bridge m.m_buffer hvals hlen m.m_index h0 h1]
  have hpow : (B32 : Nat) ^ 623 = 2 ^ (32 * 623) := by
    rw [pow_mul]
    norm_num [B32]
  rw [hpow]
  rfl

theorem integer_wf (m : MersenneTwister) (h : MTwf m) : MTwf (m.integer).2 := by
  obtain ⟨hlen, hvals, h0, h1⟩ := h
  obtain ⟨hb0, hb1⟩ := integer_index_bounds m h0 h1
  refine ⟨?_, ?_, hb0, hb1⟩
  · simp only [MersenneTwister.integer]
    simpa using hlen
  · simp only [MersenneTwister.integer]
    intro x hx
    rcases List.mem_or_eq_of_mem_set hx with hmem | rfl
    · exact hvals x hmem
    · exact twist_src_lt m.m_buffer hvals _ _ _

theorem rotSeq_comp (a : Nat) : ∀ (b buf : Nat), rotSeq (a + b) buf = rotSeq b (rotSeq a buf) := by
  induction a with
  | zero =>
    intro b buf
    rw [Nat.zero_add]
    rfl
  | succ a ih =>
    intro b buf
    rw [show a + 1 + b = (a + b) + 1 by omega]
    show rotSeq (a + b) (rotStep buf) = rotSeq b (rotSeq (a + 1) buf)
    rw [ih b (rotStep buf)]
    rfl

theorem rotN_zero (buf : Nat) : rotN 0 buf = rotStep buf := rfl

theorem rotN_succ (k buf : Nat) :
    rotN (k + 1) buf =
      cond (Nat.beq (Nat.mod (rotN k buf) 2) 0) (rotN k (rotN k buf)) (rotN k (rotN k buf)) :=
  rfl

theorem rotN_eq (k : Nat) : ∀ buf : Nat, rotN k buf = rotSeq (2 ^ k) buf := by
  induction k with
  | zero =>
    intro buf
    rw [rotN_zero, pow_zero]
    rfl
  | succ k ih =>
    intro buf
    rw [rotN_succ, condSelf, ih, ih, ← rotSeq_comp]
    congr 1
    rw [pow_succ]
    omega

theorem rotBits_eq (ks : List Nat) : ∀ buf : Nat, rotBits ks buf = rotSeq (sumPow ks) buf := by
  induction ks with
  | nil =>
    intro buf
    rfl
  | cons k ks ih =>
    intro buf
    show cond (Nat.beq (Nat.mod (rotN k buf) 2) 0) (rotBits ks (rotN k buf))
        (rotBits ks (rotN k buf)) = _
    rw [condSelf, ih, rotN_eq, ← rotSeq_comp]
    rfl

theorem mtWarm_bridge (n : Nat) :
    ∀ m : MersenneTwister, MTwf m →
      MTwf (mtWarm n m) ∧
        packBuf ((mtWarm n m).m_buffer.rotate (mtWarm n m).m_index.toNat) =
          rotSeq n (packBuf (m.m_buffer.rotate m.m_index.toNat)) := by
  induction n with
  | zero =>
    intro m h
    exact ⟨h, rfl⟩
  | succ n ih =>
    intro m h
    have hwf2 := integer_wf m h
    obtain ⟨hw, hp⟩ := ih (m.integer).2 hwf2
    refine ⟨hw, ?_⟩
    show packBuf ((mtWarm n (m.integer).2).m_buffer.rotate
      (mtWarm n (m.integer).2).m_index.toNat) = _
    rw [hp]
    have hi0 := h.2.2.1
    have hi1 := h.2.2.2
    have hidx : (m.integer).2.m_index.toNat = (m.m_index.toNat + 1) % 624 := by
      rw [integer_index m hi0 hi1]
      omega
    rw [hidx, integer_snd_bridge m h]
    rfl

theorem create_bridge (seed : Nat) :
    MTwf (MersenneTwister.create seed) ∧
      packBuf ((MersenneTwister.create seed).m_buffer.rotate
        (MersenneTwister.create seed).m_index.toNat) = packedCreate seed := by
  have hwf0 : MTwf ⟨List.replicate 624 (seed % 2 ^ 32), 0⟩ := by
    refine ⟨List.length_replicate 624 _, ?_, by norm_num, by norm_num⟩
    intro x hx
    have hx2 : x = seed % 2 ^ 32 := List.eq_of_mem_replicate hx
    have hlt : seed % 2 ^ 32 < 2 ^ 32 := Nat.mod_lt _ (by norm_num)
    unfold B32
    omega
  obtain ⟨hw, hp⟩ := mtWarm_bridge (624 * 100) _ hwf0
  refine ⟨hw, ?_⟩
  have hsum : sumPow [6, 7, 8, 9, 12, 13, 14, 15] = 624 * 100 := by decide
  rw [MersenneTwister.create, hp]
  show rotSeq (624 * 100) (packBuf ((List.replicate 624 (seed % 2 ^ 32)).rotate 0)) = _
  rw [List.rotate_zero, packedCreate, rotBits_eq, packRep_eq, hsum,
    show Nat.mod seed B32 = seed % 2 ^ 32 from rfl]

theorem create_first_output (seed : Nat) :
    mtOutputs (MersenneTwister.create seed) 1 = [packedFirstOutput seed] := by
  obtain ⟨hw, hp⟩ := create_bridge seed
  rw [mtOutputs, mtOutputs, integer_fst_bridge _ hw, hp]
  rfl

/-! ## Worker threads (ordering.cpp lines 96-138)

Each worker runs a perpetual loop; one iteration is, in program order:
`sem_wait` on its own begin-semaphore, the busy-wait
`while (random.integer() % 8 != 0) {}`, the transaction
(`X = 1` resp. `Y = 1`, the compile-time-selected barrier — with
`USE_CPU_FENCE == 0` a compiler-only barrier — then `r1 = Y` resp.
`r2 = X`), and one `sem_signal` of `endSema`.  An iteration is modelled
as the list of actions it performs; the busy-wait is given fuel and
fails (`none`) if no draw divisible by 8 appears within it. -/

inductive SemName
  | beginSema1
  | beginSema2
  | endSema
deriving DecidableEq

inductive FlagName
  | X
  | Y
deriving DecidableEq

inductive ResultName
  | r1
  | r2
deriving DecidableEq

inductive WorkerAction
  | semWaitOn (s : SemName)
  | delayDraw (v : Nat)
  | writeFlag (f : FlagName) (v : Nat)
  | compilerBarrier
  | readFlagInto (f : FlagName) (r : ResultName)
  | semSignalOn (s : SemName)
deriving DecidableEq

/-- The successive `random.integer()` draws of one busy-wait: all draws
before the last have `v % 8 ≠ 0` (the loop continues), the last has
`v % 8 = 0` (the loop exits). -/
def delayDraws : Nat → MersenneTwister → Option (List Nat × MersenneTwister)
  | 0, _ => none
  | fuel + 1, m =>
    if (m.integer).1 % 8 ≠ 0 then
      match delayDraws fuel (m.integer).2 with
      | none => none
      | some (vs, m') => some ((m.integer).1 :: vs, m')
    else some ([(m.integer).1], (m.integer).2)

def thread1FuncIter (m : MersenneTwister) (fuel : Nat) :
    Option (List WorkerAction × MersenneTwister) :=
  match delayDraws fuel m with
  | none => none
  | some (vs, m') =>
    some (WorkerAction.semWaitOn SemName.beginSema1 ::
      (vs.map WorkerAction.delayDraw ++
        [WorkerAction.writeFlag FlagName.X 1, WorkerAction.compilerBarrier,
         WorkerAction.readFlagInto FlagName.Y ResultName.r1,
         WorkerAction.semSignalOn SemName.endSema]), m')

def thread2FuncIter (m : MersenneTwister) (fuel : Nat) :
    Option (List WorkerAction × MersenneTwister) :=
  match delayDraws fuel m with
  | none => none
  | some (vs, m') =>
    some (WorkerAction.semWaitOn SemName.beginSema2 ::
      (vs.map WorkerAction.delayDraw ++
        [WorkerAction.writeFlag FlagName.Y 1, WorkerAction.compilerBarrier,
         WorkerAction.readFlagInto FlagName.X ResultName.r2,
         WorkerAction.semSignalOn SemName.endSema]), m')

theorem delayDraws_spec (fuel : Nat) :
    ∀ (m : MersenneTwister) (vs : List Nat) (m' : MersenneTwister),
      delayDraws fuel m = some (vs, m') →
        vs ≠ [] ∧ vs = mtOutputs m vs.length ∧ m' = mtWarm vs.length m ∧
          (∀ v ∈ vs.dropLast, v % 8 ≠ 0) ∧
          ∃ w, vs.getLast? = some w ∧ w % 8 = 0 := by
  induction fuel with
  | zero =>
    intro m vs m' h
    exact absurd h (by simp [delayDraws])
  | succ fuel ih =>
    intro m vs m' h
    rw [delayDraws] at h
    by_cases hc : (m.integer).1 % 8 ≠ 0
    · rw [if_pos hc] at h
      cases hrec : delayDraws fuel (m.integer).2 with
      | none =>
        rw [hrec] at h
        exact absurd h (by simp)
      | some p =>
        obtain ⟨vs', m''⟩ := p
        rw [hrec] at h
        obtain ⟨h1, h2⟩ := Prod.mk.inj (Option.some.inj h)
        obtain ⟨hne, hout, hwarm, hmid, w, hlast, hw⟩ := ih (m.integer).2 vs' m'' hrec
        subst h1
        subst h2
        obtain ⟨v0, vrest, rfl⟩ : ∃ v0 vrest, vs' = v0 :: vrest := by
          cases vs' with
          | nil => exact absurd rfl hne
          | cons a l => exact ⟨a, l, rfl⟩
        refine ⟨by simp, ?_, ?_, ?_, w, ?_, hw⟩
        · rw [List.length_cons, mtOutputs]
          rw [← hout]
        · rw [List.length_cons, mtWarm]
          exact hwarm
        · intro v hv
          rw [List.dropLast_cons_of_ne_nil (by simp)] at hv
          rcases List.mem_cons.mp hv with rfl | hv'
          · exact hc
          · exact hmid v hv'
        · rw [List.getLast?_cons_cons]
          exact hlast
    · rw [if_neg hc] at h
      obtain ⟨h1, h2⟩ := Prod.mk.inj (Option.some.inj h)
      subst h1
      subst h2
      push_neg at hc
      refine ⟨by simp, ?_, rfl, by simp, (m.integer).1, rfl, hc⟩
      rfl

/-- C4: one iteration of either worker performs, in program order: a
wait on its own begin-semaphore; the busy-wait drawing from its own
generator exactly while the draw mod 8 is nonzero (every draw but the
last is nonzero mod 8, the last is zero mod 8); a write of 1 into its
own flag (`X` for worker 1, `Y` for worker 2); the barrier; a read of
the other worker's flag into its own result slot (`r1` resp. `r2`); and
one signal of `endSema`. -/
theorem C4_worker_iteration_shape :
    (∀ (m : MersenneTwister) (fuel : Nat) (acts : List WorkerAction) (m' : MersenneTwister),
      thread1FuncIter m fuel = some (acts, m') →
        ∃ vs : List Nat,
          acts = WorkerAction.semWaitOn SemName.beginSema1 ::
            (vs.map WorkerAction.delayDraw ++
              [WorkerAction.writeFlag FlagName.X 1, WorkerAction.compilerBarrier,
               WorkerAction.readFlagInto FlagName.Y ResultName.r1,
               WorkerAction.semSignalOn SemName.endSema]) ∧
          vs ≠ [] ∧ vs = mtOutputs m vs.length ∧ m' = mtWarm vs.length m ∧
          (∀ v ∈ vs.dropLast, v % 8 ≠ 0) ∧
          ∃ w, vs.getLast? = some w ∧ w % 8 = 0) ∧
    ∀ (m : MersenneTwister) (fuel : Nat) (acts : List WorkerAction) (m' : MersenneTwister),
      thread2FuncIter m fuel = some (acts, m') →
        ∃ vs : List Nat,
          acts = WorkerAction.semWaitOn SemName.beginSema2 ::
            (vs.map WorkerAction.delayDraw ++
              [WorkerAction.writeFlag FlagName.Y 1, WorkerAction.compilerBarrier,
               WorkerAction.readFlagInto FlagName.X ResultName.r2,
               WorkerAction.semSignalOn SemName.endSema]) ∧
          vs ≠ [] ∧ vs = mtOutputs m vs.length ∧ m' = mtWarm vs.length m ∧
          (∀ v ∈ vs.dropLast, v % 8 ≠ 0) ∧
          ∃ w, vs.getLast? = some w ∧ w % 8 = 0 := by
  constructor
  · intro m fuel acts m' h
    rw [thread1FuncIter] at h
    cases hd : delayDraws fuel m with
    | none =>
      rw [hd] at h
      exact absurd h (by simp)
    | some p =>
      obtain ⟨vs, m''⟩ := p
      rw [hd] at h
      obtain ⟨h1, h2⟩ := Prod.mk.inj (Option.some.inj h)
      obtain ⟨hne, hout, hwarm, hmid, w, hlast, hw⟩ := delayDraws_spec fuel m vs m'' hd
      exact ⟨vs, h1.symm, hne, hout, h2 ▸ hwarm, hmid, w, hlast, hw⟩
  · intro m fuel acts m' h
    rw [thread2FuncIter] at h
    cases hd : delayDraws fuel m with
    | none =>
      rw [hd] at h
      exact absurd h (by simp)
    | some p =>
      obtain ⟨vs, m''⟩ := p
      rw [hd] at h
      obtain ⟨h1, h2⟩ := Prod.mk.inj (Option.some.inj h)
      obtain ⟨hne, hout, hwarm, hmid, w, hlast, hw⟩ := delayDraws_spec fuel m vs m'' hd
      exact ⟨vs, h1.symm, hne, hout, h2 ▸ hwarm, hmid, w, hlast, hw⟩

set_option maxRecDepth 40000 in
theorem C4_worker_iteration_shape_witness :
    ∃ vs : List Nat,
      [WorkerAction.semWaitOn SemName.beginSema1, WorkerAction.delayDraw 0,
        WorkerAction.writeFlag FlagName.X 1, WorkerAction.compilerBarrier,
        WorkerAction.readFlagInto FlagName.Y ResultName.r1,
        WorkerAction.semSignalOn SemName.endSema] =
        WorkerAction.semWaitOn SemName.beginSema1 ::
          (vs.map WorkerAction.delayDraw ++
            [WorkerAction.writeFlag FlagName.X 1, WorkerAction.compilerBarrier,
             WorkerAction.readFlagInto FlagName.Y ResultName.r1,
             WorkerAction.semSignalOn SemName.endSema]) ∧
        vs ≠ [] ∧
        vs = mtOutputs ⟨List.replicate 624 0, 0⟩ vs.length ∧
        (⟨List.replicate 624 0, 1⟩ : MersenneTwister) = mtWarm vs.length ⟨List.replicate 624 0, 0⟩ ∧
        (∀ v ∈ vs.dropLast, v % 8 ≠ 0) ∧
        ∃ w, vs.getLast? = some w ∧ w % 8 = 0 :=
  C4_worker_iteration_shape.1 ⟨List.replicate 624 0, 0⟩ 1
    [WorkerAction.semWaitOn SemName.beginSema1, WorkerAction.delayDraw 0,
      WorkerAction.writeFlag FlagName.X 1, WorkerAction.compilerBarrier,
      WorkerAction.readFlagInto FlagName.Y ResultName.r1,
      WorkerAction.semSignalOn SemName.endSema]
    ⟨List.replicate 624 0, 1⟩ (by decide)

/-! ## Controller loop (ordering.cpp lines 160-181)

One pass of `main`'s experiment loop, in program order: reset `X`, reset
`Y`, signal `beginSema1`, signal `beginSema2`, wait on `endSema` twice,
then inspect `(r1, r2)`.  The inspection increments the 32-bit
`detected` counter and prints
`"<detected> reorders detected after <iterations> iterations\n"`
followed by `std::endl` exactly when `r1 == 0 && r2 == 0`. -/

inductive ControllerAction
  | resetFlag (f : FlagName)
  | semSignalOn (s : SemName)
  | semWaitOn (s : SemName)
  | inspectResults
deriving DecidableEq

def mainLoopActions : List ControllerAction :=
  [ControllerAction.resetFlag FlagName.X, ControllerAction.resetFlag FlagName.Y,
   ControllerAction.semSignalOn SemName.beginSema1,
   ControllerAction.semSignalOn SemName.beginSema2,
   ControllerAction.semWaitOn SemName.endSema, ControllerAction.semWaitOn SemName.endSema,
   ControllerAction.inspectResults]

def detectMessage (detected iterations : Int) : String :=
  toString detected ++ " reorders detected after " ++ toString iterations ++ " iterations\n"

/-- The inspection step of one controller pass (lines 175-180): given
the observed results, the current detection counter, the iteration
number and the output emitted so far, return the new counter and
output. -/
def checkResults (r1 r2 detected iterations : Int) (out : List String) : Int × List String :=
  if r1 = 0 ∧ r2 = 0 then
    (wrap32 (detected + 1),
      out ++ [detectMessage (wrap32 (detected + 1)) iterations, "\n"])
  else (detected, out)

/-- C5: the inspection increments the detection counter and emits the
line with the cumulative detection count and the iteration number
followed by a blank line exactly when `r1 = 0` and `r2 = 0`; on any
other results the counter and the output stream are unchanged. -/
theorem C5_detection_iff (r1 r2 detected iterations : Int) (out : List String) :
    (r1 = 0 ∧ r2 = 0 →
      checkResults r1 r2 detected iterations out =
        (wrap32 (detected + 1),
          out ++ [toString (wrap32 (detected + 1)) ++ " reorders detected after " ++
            toString iterations ++ " iterations\n", "\n"])) ∧
      (¬(r1 = 0 ∧ r2 = 0) →
        checkResults r1 r2 detected iterations out = (detected, out)) ∧
      (checkResults r1 r2 detected iterations out ≠ (detected, out) ↔ r1 = 0 ∧ r2 = 0) := by
  refine ⟨?_, ?_, ?_⟩
  · intro hc
    rw [checkResults, if_pos hc]
    rfl
  · intro hc
    rw [checkResults, if_neg hc]
  · constructor
    · intro hne
      by_contra hc
      exact hne (by rw [checkResults, if_neg hc])
    · intro hc
      rw [checkResults, if_pos hc]
      intro heq
      have hlen := congrArg (fun p => p.2.length) heq
      simp at hlen

theorem C5_detection_iff_witness :
    checkResults 0 0 0 7 [] =
        (wrap32 (0 + 1),
          [] ++ [toString (wrap32 (0 + 1)) ++ " reorders detected after " ++
            toString (7 : Int) ++ " iterations\n", "\n"]) ∧
      checkResults 1 0 0 7 [] = (0, []) :=
  ⟨(C5_detection_iff 0 0 0 7 []).1 ⟨rfl, rfl⟩,
   (C5_detection_iff 1 0 0 7 []).2.1 (by decide)⟩

/-- C6: within one controller pass, every reset of `X` or `Y` occurs
strictly before either begin-semaphore is signaled, and both waits on
the completion semaphore occur strictly before the results are
inspected; both resets, both begin-signals, both end-waits and the
inspection all occur in the pass. -/
theorem C6_controller_ordering :
    (∀ (i j : Nat) (f : FlagName) (s : SemName),
      mainLoopActions.get? i = some (ControllerAction.resetFlag f) →
      mainLoopActions.get? j = some (ControllerAction.semSignalOn s) → i < j) ∧
      (∀ i j : Nat,
        mainLoopActions.get? i = some (ControllerAction.semWaitOn SemName.endSema) →
        mainLoopActions.get? j = some ControllerAction.inspectResults → i < j) ∧
      mainLoopActions.count (ControllerAction.resetFlag FlagName.X) = 1 ∧
      mainLoopActions.count (ControllerAction.resetFlag FlagName.Y) = 1 ∧
      mainLoopActions.count (ControllerAction.semSignalOn SemName.beginSema1) = 1 ∧
      mainLoopActions.count (ControllerAction.semSignalOn SemName.beginSema2) = 1 ∧
      mainLoopActions.count (ControllerAction.semWaitOn SemName.endSema) = 2 ∧
      mainLoopActions.count ControllerAction.inspectResults = 1 := by
  have hlen : mainLoopActions.length = 7 := rfl
  refine ⟨?_, ?_, by decide, by decide, by decide, by decide, by decide, by decide⟩
  · intro i j f s hi hj
    have hi7 : i < 7 := by
      have := (List.get?_eq_some.mp hi).1
      omega
    have hj7 : j < 7 := by
      have := (List.get?_eq_some.mp hj).1
      omega
    interval_cases i <;> interval_cases j <;> simp_all [mainLoopActions]
  · intro i j hi hj
    have hi7 : i < 7 := by
      have := (List.get?_eq_some.mp hi).1
      omega
    have hj7 : j < 7 := by
      have := (List.get?_eq_some.mp hj).1
      omega
    interval_cases i <;> interval_cases j <;> simp_all [mainLoopActions]

theorem C6_controller_ordering_witness : (0 : Nat) < 2 ∧ (5 : Nat) < 6 :=
  ⟨C6_controller_ordering.1 0 2 FlagName.X SemName.beginSema1 rfl rfl,
   C6_controller_ordering.2.1 5 6 rfl rfl⟩

/-! ## Affinity pinning (ordering.cpp lines 151-158)

When `USE_SINGLE_HW_THREAD` is enabled, `main` calls
`pthread_setaffinity_np` once per worker thread to pin both to core 0.
Both return codes are discarded, nothing is printed, and execution
falls through to the experiment loop unconditionally; when the option
is disabled the block is absent.  The block is modelled as a function
of the build flag and of whether each affinity call fails at run time,
returning the diagnostics printed, whether the program aborts, and
whether the threads ended up pinned. -/

structure AffinityOutcome where
  diagnostics : List String
  aborted : Bool
  pinned : Bool
deriving DecidableEq

def affinitySetup (useSingleHwThread call1Fails call2Fails : Bool) : AffinityOutcome :=
  if useSingleHwThread then
    { diagnostics := [], aborted := false, pinned := !(call1Fails || call2Fails) }
  else
    { diagnostics := [], aborted := false, pinned := false }

/-- C8 counterexample: when pinning is requested and both affinity
calls fail, the program does not emit any diagnostic (the claim
requires a clear startup-time diagnostic together with continuing
unpinned, so it fails at this input). -/
theorem C8_diagnostic_counterexample :
    ¬ ((affinitySetup true true true).diagnostics ≠ [] ∧
        (affinitySetup true true true).aborted = false) := by
  decide

/-- C8 (amended): when pinning is requested but the affinity calls
fail, the program continues running unpinned rather than aborting, but
silently — it emits no diagnostic, because both
`pthread_setaffinity_np` return codes are discarded. -/
theorem C8_silent_degradation (call1Fails call2Fails : Bool)
    (h : (call1Fails || call2Fails) = true) :
    (affinitySetup true call1Fails call2Fails).pinned = false ∧
      (affinitySetup true call1Fails call2Fails).aborted = false ∧
      (affinitySetup true call1Fails call2Fails).diagnostics = [] := by
  cases call1Fails <;> cases call2Fails <;> simp_all [affinitySetup]

theorem C8_silent_degradation_witness :
    (affinitySetup true true true).pinned = false ∧
      (affinitySetup true true true).aborted = false ∧
      (affinitySetup true true true).diagnostics = [] :=
  C8_silent_degradation true true rfl


set_option maxRecDepth 1000000 in
theorem packedFirstOutput_one : packedFirstOutput 1 = 2238608926 := by
  decide!

set_option maxRecDepth 1000000 in
theorem packedFirstOutput_two : packedFirstOutput 2 = 1421810102 := by
  decide!

/-- C7: the generator is deterministic per seed — instances constructed
with equal seeds produce identical output sequences over any number of
`integer()` calls — and the instances the two workers construct with
the distinct seeds 1 and 2 produce sequences that differ (already at
the first output), sharing no state. -/
theorem C7_generator_determinism :
    (∀ s1 s2 : Nat, s1 = s2 →
      ∀ n : Nat,
        mtOutputs (MersenneTwister.create s1) n = mtOutputs (MersenneTwister.create s2) n) ∧
      mtOutputs (MersenneTwister.create 1) 1 ≠ mtOutputs (MersenneTwister.create 2) 1 := by
  constructor
  · intro s1 s2 h n
    rw [h]
  · rw [create_first_output 1, create_first_output 2]
    intro h
    simp only [List.cons.injEq, and_true] at h
    rw [packedFirstOutput_one, packedFirstOutput_two] at h
    exact absurd h (by decide)

theorem C7_generator_determinism_witness :
    mtOutputs (MersenneTwister.create 3) 0 = mtOutputs (MersenneTwister.create 3) 0 :=
  C7_generator_determinism.1 3 3 rfl 0
